import Mathlib

/-!
Verification development for the polytokenizer token-budgeted segmentation and
message-trimming engine (`src/index.ts`).

The injected token-counting capability `countTokens(model, text) -> Promise<number>`
is modelled as a function `String → Except String Int`: an `Except.error` models a
rejected promise (vendor failure), `Except.ok n` a resolved count.  The `model`
argument is part of the bound capability and therefore not represented separately.
JavaScript numbers appearing as token counts and budgets are modelled as `Int`
(all arithmetic performed by the engine on them is integer arithmetic).
`string.length` is modelled by `String.length` (they agree on the texts considered
here; the engine never inspects surrogate pairs).
-/

deriving instance DecidableEq for Except

namespace Polytokenizer

/-- `estimateTokens` from `src/index.ts`: `Math.ceil(text.length / 4)`.
For a natural number length this ceiling is `(length + 3) / 4` in `Nat` division. -/
def estimateTokens (text : String) : Int :=
  Int.ofNat ((text.length + 3) / 4)

/-- `tryCountTokens` from `src/index.ts`: calls the injected counter and, when it
throws, logs and falls back to `estimateTokens` (the log is pure observation and
is not modelled). -/
def tryCountTokens (countTokens : String → Except String Int) (text : String) : Int :=
  match countTokens text with
  | Except.ok n => n
  | Except.error _ => estimateTokens text

/-- Whitespace class of the JavaScript regexes `\s` (ASCII part: space, tab,
newline, carriage return, vertical tab, form feed; the engine is only ever run on
these in this development). -/
def isWsChar (c : Char) : Bool :=
  c = ' ' || c = '\t' || c = '\n' || c = '\r' || c = '\x0b' || c = '\x0c'

/-- Word character class `\w` of JavaScript regexes: `[A-Za-z0-9_]`. -/
def isWordChar (c : Char) : Bool :=
  c.isAlpha || c.isDigit || c = '_'

/-- Sentence-terminating punctuation `[.?!]` used by the sentence splitter. -/
def isSentenceEnd (c : Char) : Bool :=
  c = '.' || c = '?' || c = '!'

/-- Worker for `String.prototype.split(/X+/)` where `X` is a character class `p`:
splits on maximal runs of `p`-characters.  `acc` is the current segment in
reverse; `inRun` records that the previous character belonged to a delimiter run
(so the segment boundary is still pending).  Like the JavaScript split, a leading
or trailing run produces an empty segment. -/
def splitRunsGo (p : Char → Bool) : List Char → List Char → Bool → List (List Char)
  | [], acc, inRun => if inRun then [acc.reverse, []] else [acc.reverse]
  | c :: cs, acc, inRun =>
    if p c then
      splitRunsGo p cs acc true
    else if inRun then
      acc.reverse :: splitRunsGo p cs [c] false
    else
      splitRunsGo p cs (c :: acc) false

/-- `s.split(/X+/)` for a character-class regex `X`, e.g. `/\n+/` or `/\s+/`. -/
def splitRuns (p : Char → Bool) (s : String) : List String :=
  (splitRunsGo p s.data [] false).map (fun cs => String.mk cs)

/-- The paragraph splitter `/\n+/g` of `splitTextMaxTokens`. -/
def newlineSplit (s : String) : List String :=
  splitRuns (fun c => c = '\n') s

/-- Lookbehind `(?<=\w[.?!])` checked against the reversed text before a
whitespace run: the character immediately before the run must be `[.?!]` and the
one before that `\w`. -/
def sentenceLookbehind (revBefore : List Char) : Bool :=
  match revBefore with
  | p1 :: p2 :: _ => isSentenceEnd p1 && isWordChar p2
  | _ => false

/-- Worker for `s.split(/(?<=\w[.?!])\s+/g)`.  A match of `\s+` can only start at
the first character of a whitespace run (inside a run the lookbehind sees a
whitespace character, which is not `[.?!]`), so the split consumes a maximal
whitespace run exactly when the two characters preceding the run match
`\w[.?!]`. -/
def sentenceSplitGo : List Char → List Char → Bool → List (List Char)
  | [], acc, inRun => if inRun then [acc.reverse, []] else [acc.reverse]
  | c :: cs, acc, inRun =>
    if inRun then
      if isWsChar c then
        sentenceSplitGo cs acc true
      else
        acc.reverse :: sentenceSplitGo cs [c] false
    else
      if isWsChar c && sentenceLookbehind acc then
        sentenceSplitGo cs acc true
      else
        sentenceSplitGo cs (c :: acc) false

/-- The sentence splitter `/(?<=\w[.?!])\s+/g` of `splitTextMaxTokens`. -/
def sentenceSplit (s : String) : List String :=
  (sentenceSplitGo s.data [] false).map (fun cs => String.mk cs)

/-- The word splitter `/\s+/g` of `splitTextMaxTokens`. -/
def wordSplit (s : String) : List String :=
  splitRuns isWsChar s

/-- The splitter list built in `splitTextMaxTokens`:
`if (preserveSentences) splitters.push(/\n+/g, /(?<=\w[.?!])\s+/g);`
`if (preserveWords) splitters.push(/\s+/g);`. -/
def splitters (preserveSentences preserveWords : Bool) : List (String → List String) :=
  (if preserveSentences then [newlineSplit, sentenceSplit] else []) ++
    (if preserveWords then [wordSplit] else [])

/-- The transient `{ text, tokens }` fragment record of `splitTextMaxTokens`. -/
structure Part where
  text : String
  tokens : Int
deriving DecidableEq, Repr

/-- One delimiter pass of `splitTextMaxTokens`: parts already within the ceiling
pass through; an oversized part is split and each segment re-measured through
`tryCountTokens` (the source fires these measurements as a concurrent batch;
each is a pure function of its segment, so the batch is modelled as a map). -/
def applySplitter (countTokens : String → Except String Int) (maxTokens : Int)
    (splitter : String → List String) (parts : List Part) : List Part :=
  parts.flatMap (fun part =>
    if part.tokens ≤ maxTokens then [part]
    else (splitter part.text).map
      (fun segment => ⟨segment, tryCountTokens countTokens segment⟩))

/-- The `for (const splitter of splitters)` loop of `splitTextMaxTokens`. -/
def splitParts (countTokens : String → Except String Int) (maxTokens : Int)
    (ss : List (String → List String)) (initial : List Part) : List Part :=
  ss.foldl (fun parts splitter => applySplitter countTokens maxTokens splitter parts) initial

/-- The greedy packing loop at the end of `splitTextMaxTokens`: fragments are
accumulated (joined with a single newline) while the running token total stays
within the ceiling; JavaScript string truthiness (`if (currentChunk)`) is the
`= ""` test. -/
def packChunksGo (maxTokens : Int) : List Part → String → Int → List String
  | [], currentChunk, _ =>
    if currentChunk = "" then [] else [currentChunk]
  | part :: rest, currentChunk, currentTokens =>
    if currentTokens + part.tokens ≤ maxTokens then
      packChunksGo maxTokens rest
        (currentChunk ++ ((if currentChunk = "" then "" else "\n") ++ part.text))
        (currentTokens + part.tokens)
    else if currentChunk = "" then
      packChunksGo maxTokens rest part.text part.tokens
    else
      currentChunk :: packChunksGo maxTokens rest part.text part.tokens

/-- `SplitTextOptions` from `src/types/index.ts`; `none` models an absent field
(defaulted at the destructuring in `splitTextMaxTokens`).  The `overlap` field is
declared in the source but never consulted. -/
structure SplitTextOptions where
  preserveSentences : Option Bool
  preserveWords : Option Bool
  overlap : Option Int
deriving DecidableEq, Repr

/-- `splitTextMaxTokens` from `src/index.ts`.  The TypeScript default `options = {}`
is modelled by passing `⟨none, none, none⟩`.  The JavaScript comparison
`estimateTokens(text) <= maxTokens / 2` divides by 2 exactly, so over the integers
it is `2 * estimateTokens text ≤ maxTokens`. -/
def splitTextMaxTokens (countTokens : String → Except String Int) (text : String)
    (maxTokens : Int) (options : SplitTextOptions) : Except String (List String) :=
  let preserveSentences := options.preserveSentences.getD true
  let preserveWords := options.preserveWords.getD true
  if text = "" ∨ maxTokens ≤ 0 then
    Except.ok (if text = "" then [] else [text])
  else if 2 * estimateTokens text ≤ maxTokens then
    Except.ok [text]
  else
    let tokenCount := tryCountTokens countTokens text
    if tokenCount ≤ maxTokens then
      Except.ok [text]
    else
      let parts := splitParts countTokens maxTokens
        (splitters preserveSentences preserveWords) [⟨text, tokenCount⟩]
      if (parts.filter (fun p => decide (maxTokens < p.tokens))) ≠ [] then
        Except.error ("Failed to split text into chunks of " ++ toString maxTokens ++
          " tokens. Some segments are still too large.")
      else
        Except.ok (packChunksGo maxTokens parts "" 0)

/-- The `role` union type of `Message` in `src/types/index.ts`. -/
inductive Role where
  | system
  | user
  | assistant
  | tool
deriving DecidableEq, Repr

/-- `Message` from `src/types/index.ts`. -/
structure Message where
  role : Role
  content : String
  name : Option String
  tool_call_id : Option String
deriving DecidableEq, Repr

/-- The `strategy` union of `TruncateOptions`. -/
inductive Strategy where
  | early
  | late
deriving DecidableEq, Repr

/-- `TruncateOptions` from `src/types/index.ts`: only `strategy` and
`preserveSystem` exist; `none` models an absent field. -/
structure TruncateOptions where
  strategy : Option Strategy
  preserveSystem : Option Bool
deriving DecidableEq, Repr

/-- The hardcoded per-message overhead `extraTokensPerMessage = 4` of `trimMessages`. -/
def extraTokensPerMessage : Int := 4

/-- The hardcoded conversation overhead `extraTokensTotal = 2` of `trimMessages`. -/
def extraTokensTotal : Int := 2

/-- A message together with its computed token cost.  The source keeps
`{ message, tokens }` objects and later recovers each object's position with
`findIndex` under JavaScript reference equality; `idx` records that identity
(the position at which the object was created). -/
structure ScoredMessage where
  idx : Nat
  message : Message
  tokens : Int
deriving DecidableEq, Repr

/-- The `async.map` computing `messageTokens` in `trimMessages`, with positions
attached (see `ScoredMessage.idx`). -/
def scoreMessagesFrom (countTokens : String → Except String Int) (i : Nat) :
    List Message → List ScoredMessage
  | [] => []
  | m :: rest =>
    ⟨i, m, tryCountTokens countTokens m.content + extraTokensPerMessage⟩ ::
      scoreMessagesFrom countTokens (i + 1) rest

/-- `messageTokens` of `trimMessages`. -/
def scoreMessages (countTokens : String → Except String Int) (messages : List Message) :
    List ScoredMessage :=
  scoreMessagesFrom countTokens 0 messages

/-- The `strategy === 'late'` selection loop of `trimMessages`: scan forward,
accumulate while the running total stays within `availableTokens`, break at the
first overflow.  The `'early'` loop is this same scan run over the reversed list
(it iterates from the last index down and `unshift`s). -/
def selectLateGo (availableTokens : Int) : List ScoredMessage → Int → List ScoredMessage
  | [], _ => []
  | msg :: rest, selectedTokens =>
    if selectedTokens + msg.tokens ≤ availableTokens then
      msg :: selectLateGo availableTokens rest (selectedTokens + msg.tokens)
    else
      []

/-- Comparator of the final `.sort((a, b) => aIndex - bIndex)` of `trimMessages`. -/
def idxLe (a b : ScoredMessage) : Prop := a.idx ≤ b.idx

/-- Strict index order on scored messages (the order in which they were created). -/
def idxLt (a b : ScoredMessage) : Prop := a.idx < b.idx

instance : DecidableRel idxLe := fun a b => Nat.decLe a.idx b.idx

instance : IsTotal ScoredMessage idxLe := ⟨fun a b => Nat.le_total a.idx b.idx⟩

instance : IsTrans ScoredMessage idxLe := ⟨fun _ _ _ => Nat.le_trans⟩

instance : DecidableRel idxLt := fun a b => Nat.decLt a.idx b.idx

instance : IsAntisymm ScoredMessage idxLt := ⟨fun _ _ h1 h2 => absurd h2 (Nat.lt_asymm h1)⟩

/-- The final sort of `trimMessages` by original index.  The JavaScript sort with
the comparator `aIndex - bIndex` and pairwise-distinct indices produces the
unique index-sorted permutation, which insertion sort computes. -/
def sortByIndex (l : List ScoredMessage) : List ScoredMessage :=
  List.insertionSort idxLe l

/-- `systemMessages` of `trimMessages`: the scored messages of role `system`. -/
def sysScored (countTokens : String → Except String Int) (messages : List Message) :
    List ScoredMessage :=
  (scoreMessages countTokens messages).filter (fun m => decide (m.message.role = Role.system))

/-- `nonSystemMessages` of `trimMessages`: the scored messages of other roles. -/
def nonSysScored (countTokens : String → Except String Int) (messages : List Message) :
    List ScoredMessage :=
  (scoreMessages countTokens messages).filter (fun m => decide (¬ m.message.role = Role.system))

/-- `totalTokens = contentTokens + extraTokensTotal` of `trimMessages`. -/
def totalTokensOf (countTokens : String → Except String Int) (messages : List Message) : Int :=
  ((scoreMessages countTokens messages).map (fun m => m.tokens)).sum + extraTokensTotal

/-- `systemTokens` of `trimMessages`: the preserved-role reservation (0 when
`preserveSystem` is off). -/
def systemTokensOf (countTokens : String → Except String Int) (preserveSystem : Bool)
    (messages : List Message) : Int :=
  if preserveSystem then ((sysScored countTokens messages).map (fun m => m.tokens)).sum else 0

/-- `availableTokens = maxTokens - systemTokens - extraTokensTotal` of `trimMessages`. -/
def availableTokensOf (countTokens : String → Except String Int) (preserveSystem : Bool)
    (messages : List Message) (maxTokens : Int) : Int :=
  maxTokens - systemTokensOf countTokens preserveSystem messages - extraTokensTotal

/-- `selectedMessages` of `trimMessages`: the `early` loop iterates from the last
index down and `unshift`s (equivalently: the forward scan of the reversed list,
reversed back); the `late` loop is the forward scan. -/
def selectedScored (strategy : Strategy) (availableTokens : Int)
    (nonSystemMessages : List ScoredMessage) : List ScoredMessage :=
  match strategy with
  | Strategy.early => (selectLateGo availableTokens nonSystemMessages.reverse 0).reverse
  | Strategy.late => selectLateGo availableTokens nonSystemMessages 0

/-- `trimMessages` from `src/index.ts`.  The JavaScript guard `if (!maxTokens)`
rejects exactly the falsy number `0` (an undefined budget is outside the typed
signature, and negative numbers are truthy).  The TypeScript default
`options = {}` is modelled by passing `⟨none, none⟩`.  Each named definition
above corresponds to one `let` of the source function. -/
def trimMessages (countTokens : String → Except String Int) (messages : List Message)
    (maxTokens : Int) (options : TruncateOptions) : Except String (List Message) :=
  let strategy := options.strategy.getD Strategy.early
  let preserveSystem := options.preserveSystem.getD true
  if maxTokens = 0 then
    Except.error "Must specify maxTokens"
  else if messages = [] then
    Except.ok []
  else if totalTokensOf countTokens messages ≤ maxTokens then
    Except.ok messages
  else if availableTokensOf countTokens preserveSystem messages maxTokens ≤ 0 then
    Except.ok (if preserveSystem then (sysScored countTokens messages).map (fun m => m.message) else [])
  else
    Except.ok ((sortByIndex
      ((if preserveSystem then sysScored countTokens messages else []) ++
        selectedScored strategy
          (availableTokensOf countTokens preserveSystem messages maxTokens)
          (nonSysScored countTokens messages))).map (fun m => m.message))

/-- The accumulate-until-first-overflow scan described by the specification for
strategy `late`: take messages from the front while each fits in the remaining
budget, stop at the first overflow. -/
def specAccumForward (available : Int) : List ScoredMessage → List ScoredMessage
  | [] => []
  | msg :: rest =>
    if msg.tokens ≤ available then
      msg :: specAccumForward (available - msg.tokens) rest
    else
      []

/-- The accumulate-until-first-overflow scan described by the specification for
strategy `early`: scan from the most recent message backward, so the retained
messages are the scan of the reversed list, put back in original order. -/
def specAccumBackward (available : Int) (l : List ScoredMessage) : List ScoredMessage :=
  (specAccumForward available l.reverse).reverse

/-- The evictable list as the specification defines it (§4.2 step 3): everything
outside the preserved role, or all messages when `preserveSystem` is false. -/
def claimEvictable (preserveSystem : Bool) (scored : List ScoredMessage) : List ScoredMessage :=
  if preserveSystem then
    scored.filter (fun m => decide (¬ m.message.role = Role.system))
  else
    scored

/-- A concrete counting function for witnesses: counts occurrences of the letter
x.  It is exactly additive across the newline separator used by the packer. -/
def countX (s : String) : Int := Int.ofNat (s.data.count 'x')

/-- `countX` wrapped as an always-succeeding counting capability. -/
def ctX (s : String) : Except String Int := Except.ok (countX s)

/-- A counting capability that reports a huge count for every string. -/
def ctBig : String → Except String Int := fun _ => Except.ok 100

/-- A counting capability that rejects on every input (vendor failure). -/
def errCt : String → Except String Int := fun _ => Except.error "vendor failure"

/-- Length-based counting capability (always succeeds). -/
def okLen (s : String) : Except String Int := Except.ok (Int.ofNat s.length)

/-- The always-succeeding capability that reports what `tryCountTokens` would
compute from `countTokens`: running the engine with it is indistinguishable from
running with `countTokens`, because every counting failure is absorbed. -/
def okify (countTokens : String → Except String Int) : String → Except String Int :=
  fun s => Except.ok (tryCountTokens countTokens s)

/-- A one-character user message used in concrete inputs. -/
def msgU : Message := ⟨Role.user, "u", none, none⟩

/-- A five-character user message used in concrete inputs. -/
def msgU5 : Message := ⟨Role.user, "uuuuu", none, none⟩

/-- Concrete conversation for the eviction-direction counterexample: a costly
system message, a cheap user message, a cheap trailing system message. -/
def msgsEvict : List Message :=
  [⟨Role.system, "aaaaaa", none, none⟩, ⟨Role.user, "u", none, none⟩,
   ⟨Role.system, "b", none, none⟩]

/-- Four-message conversation (system, user, assistant, user) used as the
concrete eviction scenario in witnesses. -/
def msgs4 : List Message :=
  [⟨Role.system, "s", none, none⟩, ⟨Role.user, "aaaa", none, none⟩,
   ⟨Role.assistant, "bbbb", none, none⟩, ⟨Role.user, "cccc", none, none⟩]

/-- Two-message conversation (system, user) used in the budget witness. -/
def msgsW : List Message :=
  [⟨Role.system, "ss", none, none⟩, ⟨Role.user, "uuuu", none, none⟩]

end Polytokenizer

namespace Polytokenizer

/-- Absorption at a single call: counting through `okify` is `tryCountTokens`. -/
theorem tryCountTokens_okify (countTokens : String → Except String Int) :
    tryCountTokens (okify countTokens) = tryCountTokens countTokens :=
  funext fun _ => rfl

/-- One delimiter pass is unchanged when the capability is replaced by `okify`. -/
theorem applySplitter_okify (countTokens : String → Except String Int) (maxTokens : Int)
    (splitter : String → List String) (parts : List Part) :
    applySplitter (okify countTokens) maxTokens splitter parts =
      applySplitter countTokens maxTokens splitter parts := by
  simp only [applySplitter, tryCountTokens_okify]

/-- The whole delimiter pipeline is unchanged under `okify`. -/
theorem splitParts_okify (countTokens : String → Except String Int) (maxTokens : Int) :
    ∀ (ss : List (String → List String)) (initial : List Part),
      splitParts (okify countTokens) maxTokens ss initial =
        splitParts countTokens maxTokens ss initial
  | [], _ => rfl
  | splitter :: ss, initial => by
    simp only [splitParts, List.foldl_cons]
    rw [show applySplitter (okify countTokens) maxTokens splitter initial =
        applySplitter countTokens maxTokens splitter initial from
      applySplitter_okify countTokens maxTokens splitter initial]
    exact splitParts_okify countTokens maxTokens ss _

/-- Message scoring is unchanged under `okify`. -/
theorem scoreMessagesFrom_okify (countTokens : String → Except String Int) :
    ∀ (i : Nat) (messages : List Message),
      scoreMessagesFrom (okify countTokens) i messages =
        scoreMessagesFrom countTokens i messages
  | _, [] => rfl
  | i, _ :: rest => by
    simp only [scoreMessagesFrom, tryCountTokens_okify]
    rw [scoreMessagesFrom_okify countTokens (i + 1) rest]

/-- C3 (counterexample): a counting capability that rejects on every input does
not make either engine reject — `splitTextMaxTokens` and `trimMessages` both
return ordinary results, so the injected error is not propagated to the caller
as the claim states. -/
theorem counting_failure_counterexample :
    errCt "u" = Except.error "vendor failure" ∧
    splitTextMaxTokens errCt "xxxx xxxx" 2 ⟨none, none, none⟩ = Except.ok ["xxxx\nxxxx"] ∧
    trimMessages errCt [msgU] 100 ⟨none, none⟩ = Except.ok [msgU] := by
  refine ⟨rfl, by decide, by decide⟩

/-- C3 (amended): instead of propagating, `tryCountTokens` catches every error
raised by the injected capability and substitutes `estimateTokens`; consequently
both engines behave exactly as if they had been given the total capability
`okify countTokens`, and no counting failure ever reaches the caller. -/
theorem counting_failure_absorbed (countTokens : String → Except String Int)
    (text : String) (maxTokens : Int) (splitOptions : SplitTextOptions)
    (messages : List Message) (truncateOptions : TruncateOptions) :
    splitTextMaxTokens countTokens text maxTokens splitOptions =
      splitTextMaxTokens (okify countTokens) text maxTokens splitOptions ∧
    trimMessages countTokens messages maxTokens truncateOptions =
      trimMessages (okify countTokens) messages maxTokens truncateOptions := by
  constructor
  · simp only [splitTextMaxTokens, tryCountTokens_okify, splitParts_okify]
  · simp only [trimMessages, totalTokensOf, availableTokensOf, systemTokensOf, sysScored,
      nonSysScored, scoreMessages, scoreMessagesFrom_okify]

/-- C1 (counterexample): the estimate-based fast path returns the whole text as
a single chunk without measuring it, so a returned chunk can exceed `maxTokens`
as measured by the same injected `countTokens`: here the call returns normally
with chunk `"ab"`, whose measured count is 100 > 2. -/
theorem ceiling_counterexample :
    splitTextMaxTokens ctBig "ab" 2 ⟨none, none, none⟩ = Except.ok ["ab"] ∧
    ctBig "ab" = Except.ok 100 ∧ ¬ ((100 : Int) ≤ 2) := by
  refine ⟨by decide, rfl, by decide⟩

/-- C10 (confirmed): for non-empty text with a positive ceiling, whenever
`ceil(length/4) ≤ maxTokens / 2` (over the integers: `2 * estimateTokens text ≤
maxTokens`), `splitTextMaxTokens` returns `[text]` for every injected counting
capability — in particular without consulting it, whatever count it would
report. -/
theorem estimate_fast_path (countTokens : String → Except String Int) (text : String)
    (maxTokens : Int) (options : SplitTextOptions)
    (hne : text ≠ "") (hpos : 0 < maxTokens)
    (hest : 2 * estimateTokens text ≤ maxTokens) :
    splitTextMaxTokens countTokens text maxTokens options = Except.ok [text] := by
  have h1 : ¬ (text = "" ∨ maxTokens ≤ 0) := by
    push_neg
    exact ⟨hne, by omega⟩
  simp only [splitTextMaxTokens, h1, if_false, hest, if_true]

/-- Witness for C10 at `text = "hi"`, `maxTokens = 4`, with the length-based
counter. -/
theorem estimate_fast_path_witness :
    ("hi" ≠ "") ∧ ((0 : Int) < 4) ∧ (2 * estimateTokens "hi" ≤ 4) ∧
    splitTextMaxTokens okLen "hi" 4 ⟨none, none, none⟩ = Except.ok ["hi"] :=
  ⟨by decide, by decide, by decide,
    estimate_fast_path okLen "hi" 4 ⟨none, none, none⟩ (by decide) (by decide) (by decide)⟩

/-- C8 (counterexample): a negative budget is not positive, yet `trimMessages`
does not raise — the JavaScript guard `if (!maxTokens)` only catches the falsy
value 0, so `maxTokens = -1` proceeds to the degenerate branch and returns a
result. -/
theorem missing_budget_counterexample :
    ¬ ((0 : Int) < -1) ∧ trimMessages okLen [msgU] (-1) ⟨none, none⟩ = Except.ok [] := by
  refine ⟨by decide, by decide⟩

/-- C8 (amended): `trimMessages` raises an error exactly when `maxTokens = 0`
(the JavaScript falsy check; an undefined budget is outside the typed signature
and non-zero values, including negative ones, pass the guard).  The error is
independent of the counting capability and of the messages, i.e. it is raised
before any token-counting call is issued. -/
theorem missing_budget_iff (countTokens : String → Except String Int)
    (messages : List Message) (maxTokens : Int) (options : TruncateOptions) :
    (∃ e, trimMessages countTokens messages maxTokens options = Except.error e) ↔
      maxTokens = 0 := by
  constructor
  · rintro ⟨e, he⟩
    by_contra hmt
    rw [trimMessages] at he
    simp only [hmt, if_false] at he
    repeat' split at he
    all_goals exact Except.noConfusion he
  · intro h
    subst h
    exact ⟨"Must specify maxTokens", rfl⟩

/-- C9 (code bug): the README documents `extraTokensPerMessage` and
`extraTokensTotal` as caller-settable `trimMessages` options (defaults 4 and 2),
but `TruncateOptions` has no such fields and the code hardcodes the constants.
Concretely, for every option value that can be passed, a single 5-token user
message is evicted at `maxTokens = 6` because the hardcoded 4 + 2 overhead is
always applied (with zero overheads, as the documentation allows requesting,
the message would fit). -/
theorem overheads_hardcoded (options : TruncateOptions) :
    trimMessages okLen [msgU5] 6 options = Except.ok [] := by
  obtain ⟨s, p⟩ := options
  rcases s with _ | (_ | _) <;> rcases p with _ | (_ | _) <;> rfl

/-- C4 (confirmed): past the guards and fast paths (non-empty text, positive
ceiling, estimate above half the ceiling, whole-text count above the ceiling),
`splitTextMaxTokens` raises an error exactly when some fragment left by the full
delimiter pipeline still exceeds `maxTokens`; in that case the result is the
error alone — an `Except.error` carries no chunk list, so the packed chunks are
discarded. -/
theorem segmentation_failure_iff (countTokens : String → Except String Int)
    (text : String) (maxTokens : Int) (options : SplitTextOptions)
    (hne : text ≠ "") (hpos : 0 < maxTokens)
    (hest : ¬ 2 * estimateTokens text ≤ maxTokens)
    (hcount : maxTokens < tryCountTokens countTokens text) :
    (∃ e, splitTextMaxTokens countTokens text maxTokens options = Except.error e) ↔
      ∃ p ∈ splitParts countTokens maxTokens
          (splitters (options.preserveSentences.getD true) (options.preserveWords.getD true))
          [⟨text, tryCountTokens countTokens text⟩],
        maxTokens < p.tokens := by
  have h1 : ¬ (text = "" ∨ maxTokens ≤ 0) := by
    push_neg
    exact ⟨hne, by omega⟩
  simp only [splitTextMaxTokens, h1, if_false, hest, if_neg (not_le.mpr hcount)]
  set parts := splitParts countTokens maxTokens
    (splitters (options.preserveSentences.getD true) (options.preserveWords.getD true))
    [⟨text, tryCountTokens countTokens text⟩] with hparts
  by_cases hover : parts.filter (fun p => decide (maxTokens < p.tokens)) = []
  · rw [if_neg (by simpa using hover)]
    constructor
    · rintro ⟨e, he⟩
      exact Except.noConfusion he
    · rintro ⟨p, hp, hpt⟩
      rw [List.filter_eq_nil_iff] at hover
      exact absurd (decide_eq_true hpt) (hover p hp)
  · rw [if_pos (by simpa using hover)]
    constructor
    · intro _
      rw [List.filter_eq_nil_iff] at hover
      push_neg at hover
      obtain ⟨p, hp, hpt⟩ := hover
      exact ⟨p, hp, of_decide_eq_true hpt⟩
    · intro _
      exact ⟨_, rfl⟩

/-- Prepending the empty string is the identity on strings. -/
theorem empty_append_str (s : String) : "" ++ s = s := by
  cases s
  rfl

/-- When the capability is total, `tryCountTokens` is its underlying function. -/
theorem tryCountTokens_of_ok {countTokens : String → Except String Int} {f : String → Int}
    (hct : ∀ s, countTokens s = Except.ok (f s)) (t : String) :
    tryCountTokens countTokens t = f t := by
  rw [tryCountTokens, hct]

/-- Fragments produced by one delimiter pass carry exactly the measured count of
their text (assuming the capability is total). -/
theorem applySplitter_tokens {countTokens : String → Except String Int} {f : String → Int}
    (hct : ∀ s, countTokens s = Except.ok (f s)) (maxTokens : Int)
    (splitter : String → List String) (parts : List Part)
    (hparts : ∀ p ∈ parts, p.tokens = f p.text) :
    ∀ p ∈ applySplitter countTokens maxTokens splitter parts, p.tokens = f p.text := by
  intro p hp
  rw [applySplitter, List.mem_flatMap] at hp
  obtain ⟨q, hq, hpq⟩ := hp
  by_cases hfit : q.tokens ≤ maxTokens
  · rw [if_pos hfit] at hpq
    rcases List.mem_singleton.mp hpq with rfl
    exact hparts _ hq
  · rw [if_neg hfit] at hpq
    obtain ⟨segment, _, rfl⟩ := List.mem_map.mp hpq
    exact tryCountTokens_of_ok hct segment

/-- Fragments left by the whole delimiter pipeline carry exactly the measured
count of their text (assuming the capability is total). -/
theorem splitParts_tokens {countTokens : String → Except String Int} {f : String → Int}
    (hct : ∀ s, countTokens s = Except.ok (f s)) (maxTokens : Int) :
    ∀ (ss : List (String → List String)) (initial : List Part),
      (∀ p ∈ initial, p.tokens = f p.text) →
      ∀ p ∈ splitParts countTokens maxTokens ss initial, p.tokens = f p.text
  | [], _, hinit => hinit
  | splitter :: ss, initial, hinit => by
    intro p hp
    rw [splitParts, List.foldl_cons] at hp
    exact splitParts_tokens hct maxTokens ss _
      (applySplitter_tokens hct maxTokens splitter initial hinit) p hp

/-- Ceiling invariant of the greedy packer: if every incoming fragment fits the
ceiling and carries the measured count of its text, and the measure is
non-negative and subadditive across the newline join, then every emitted chunk
measures within the ceiling.  The invariant carried through the loop is that the
open chunk is empty or measures at most the running total, which stays within
the ceiling. -/
theorem packChunksGo_le (f : String → Int) (maxTokens : Int)
    (hnn : ∀ s, 0 ≤ f s) (hsub : ∀ a b, f (a ++ ("\n" ++ b)) ≤ f a + f b) :
    ∀ (parts : List Part) (cur : String) (tok : Int),
      (∀ p ∈ parts, p.tokens ≤ maxTokens ∧ p.tokens = f p.text) →
      (cur = "" ∨ f cur ≤ tok) → 0 ≤ tok → tok ≤ maxTokens →
      ∀ c ∈ packChunksGo maxTokens parts cur tok, f c ≤ maxTokens
  | [], cur, tok, _, hcur, _, htokm => by
    intro c hc
    rw [packChunksGo] at hc
    by_cases hce : cur = ""
    · rw [if_pos hce] at hc
      cases hc
    · rw [if_neg hce] at hc
      rcases List.mem_singleton.mp hc with rfl
      rcases hcur with hcur | hcur
      · exact absurd hcur hce
      · exact le_trans hcur htokm
  | part :: rest, cur, tok, hparts, hcur, htok0, htokm => by
    intro c hc
    have hpart := hparts part (List.mem_cons_self part rest)
    have hrest : ∀ p ∈ rest, p.tokens ≤ maxTokens ∧ p.tokens = f p.text :=
      fun p hp => hparts p (List.mem_cons_of_mem part hp)
    have hptnn : 0 ≤ part.tokens := hpart.2 ▸ hnn part.text
    rw [packChunksGo] at hc
    by_cases hfit : tok + part.tokens ≤ maxTokens
    · rw [if_pos hfit] at hc
      refine packChunksGo_le f maxTokens hnn hsub rest _ _ hrest (Or.inr ?_)
        (by omega) hfit c hc
      by_cases hce : cur = ""
      · rw [hce, if_pos rfl, empty_append_str, empty_append_str]
        calc f part.text = part.tokens := hpart.2.symm
          _ ≤ tok + part.tokens := by omega
      · rw [if_neg hce]
        rcases hcur with hcur | hcur
        · exact absurd hcur hce
        · calc f (cur ++ ("\n" ++ part.text)) ≤ f cur + f part.text := hsub cur part.text
            _ = f cur + part.tokens := by rw [hpart.2]
            _ ≤ tok + part.tokens := by omega
    · rw [if_neg hfit] at hc
      have hnext : ∀ c ∈ packChunksGo maxTokens rest part.text part.tokens,
          f c ≤ maxTokens :=
        packChunksGo_le f maxTokens hnn hsub rest part.text part.tokens hrest
          (Or.inr (le_of_eq hpart.2.symm)) hptnn hpart.1
      by_cases hce : cur = ""
      · rw [if_pos hce] at hc
        exact hnext c hc
      · rw [if_neg hce] at hc
        rcases List.mem_cons.mp hc with rfl | hc'
        · rcases hcur with hcur | hcur
          · exact absurd hcur hce
          · exact le_trans hcur htokm
        · exact hnext c hc'

/-- C1 (amended): the ceiling invariant holds for every call that does not
return through the `maxTokens ≤ 0` fallback or the estimate-based fast path,
provided the injected `countTokens` is total with a non-negative count that is
subadditive across the newline join used when packing fragments: every chunk of
a normal result then measures at most `maxTokens`. -/
theorem ceiling_invariant_amended (countTokens : String → Except String Int)
    (f : String → Int) (text : String) (maxTokens : Int) (options : SplitTextOptions)
    (hct : ∀ s, countTokens s = Except.ok (f s))
    (hnn : ∀ s, 0 ≤ f s)
    (hsub : ∀ a b, f (a ++ ("\n" ++ b)) ≤ f a + f b)
    (hne : text ≠ "") (hpos : 0 < maxTokens)
    (hest : ¬ 2 * estimateTokens text ≤ maxTokens) :
    ∀ chunks, splitTextMaxTokens countTokens text maxTokens options = Except.ok chunks →
      ∀ c ∈ chunks, f c ≤ maxTokens := by
  intro chunks hok c hc
  have h1 : ¬ (text = "" ∨ maxTokens ≤ 0) := by
    push_neg
    exact ⟨hne, by omega⟩
  simp only [splitTextMaxTokens, h1, if_false, hest] at hok
  by_cases hwhole : tryCountTokens countTokens text ≤ maxTokens
  · rw [if_pos hwhole] at hok
    obtain rfl := (Except.ok.injEq _ _).mp hok
    rcases List.mem_singleton.mp hc with rfl
    calc f c = tryCountTokens countTokens c := (tryCountTokens_of_ok hct c).symm
      _ ≤ maxTokens := hwhole
  · rw [if_neg hwhole] at hok
    by_cases hover : (splitParts countTokens maxTokens
        (splitters (options.preserveSentences.getD true) (options.preserveWords.getD true))
        [⟨text, tryCountTokens countTokens text⟩]).filter
          (fun p => decide (maxTokens < p.tokens)) = []
    · rw [if_neg (by simpa using hover)] at hok
      obtain rfl := (Except.ok.injEq _ _).mp hok
      rw [List.filter_eq_nil_iff] at hover
      have htok : ∀ p ∈ splitParts countTokens maxTokens
          (splitters (options.preserveSentences.getD true) (options.preserveWords.getD true))
          [⟨text, tryCountTokens countTokens text⟩], p.tokens = f p.text :=
        splitParts_tokens hct maxTokens _ _ (by
          intro p hp
          rcases List.mem_singleton.mp hp with rfl
          exact tryCountTokens_of_ok hct text)
      refine packChunksGo_le f maxTokens hnn hsub _ "" 0 ?_ (Or.inl rfl) le_rfl
        (by omega) c hc
      intro p hp
      refine ⟨?_, htok p hp⟩
      have := hover p hp
      simp only [decide_eq_true_eq] at this
      omega
    · rw [if_pos (by simpa using hover)] at hok
      exact Except.noConfusion hok

/-- Scoring keeps the underlying messages, in order. -/
theorem scoreMessagesFrom_message (countTokens : String → Except String Int) :
    ∀ (i : Nat) (messages : List Message),
      (scoreMessagesFrom countTokens i messages).map (fun m => m.message) = messages
  | _, [] => rfl
  | i, m :: rest => by
    simp only [scoreMessagesFrom, List.map_cons]
    rw [scoreMessagesFrom_message countTokens (i + 1) rest]

/-- Scoring keeps the underlying messages, in order (at the call site's index 0). -/
theorem scoreMessages_message (countTokens : String → Except String Int)
    (messages : List Message) :
    (scoreMessages countTokens messages).map (fun m => m.message) = messages :=
  scoreMessagesFrom_message countTokens 0 messages

/-- Every scored message created from index `i` onward has index at least `i`. -/
theorem scoreMessagesFrom_idx_ge (countTokens : String → Except String Int) :
    ∀ (i : Nat) (messages : List Message) (s : ScoredMessage),
      s ∈ scoreMessagesFrom countTokens i messages → i ≤ s.idx
  | i, m :: rest, s, hs => by
    rcases List.mem_cons.mp hs with rfl | hs'
    · exact Nat.le_refl i
    · exact Nat.le_of_succ_le (scoreMessagesFrom_idx_ge countTokens (i + 1) rest s hs')

/-- The scored list is strictly increasing in `idx`. -/
theorem scoreMessagesFrom_pairwise (countTokens : String → Except String Int) :
    ∀ (i : Nat) (messages : List Message),
      (scoreMessagesFrom countTokens i messages).Pairwise idxLt
  | _, [] => List.Pairwise.nil
  | i, m :: rest => by
    rw [scoreMessagesFrom]
    refine List.Pairwise.cons ?_ (scoreMessagesFrom_pairwise countTokens (i + 1) rest)
    intro s hs
    exact Nat.lt_of_lt_of_le (Nat.lt_succ_self i)
      (scoreMessagesFrom_idx_ge countTokens (i + 1) rest s hs)

/-- The scored list of a conversation is strictly increasing in `idx`. -/
theorem scoreMessages_pairwise (countTokens : String → Except String Int)
    (messages : List Message) :
    (scoreMessages countTokens messages).Pairwise idxLt :=
  scoreMessagesFrom_pairwise countTokens 0 messages

/-- Every scored message records `tryCountTokens` of its content plus the
per-message overhead. -/
theorem scoreMessagesFrom_tokens (countTokens : String → Except String Int) :
    ∀ (i : Nat) (messages : List Message) (s : ScoredMessage),
      s ∈ scoreMessagesFrom countTokens i messages →
      s.tokens = tryCountTokens countTokens s.message.content + extraTokensPerMessage
  | i, m :: rest, s, hs => by
    rcases List.mem_cons.mp hs with rfl | hs'
    · rfl
    · exact scoreMessagesFrom_tokens countTokens (i + 1) rest s hs'

/-- In a strictly `idx`-increasing list, the index determines the element. -/
theorem mem_idx_inj : ∀ {l : List ScoredMessage}, l.Pairwise idxLt →
    ∀ x ∈ l, ∀ y ∈ l, x.idx = y.idx → x = y
  | [], _, x, hx => absurd hx (List.not_mem_nil x)
  | a :: t, h, x, hx => by
    intro y hy heq
    have ha := List.pairwise_cons.mp h
    rcases List.mem_cons.mp hx with rfl | hx'
    · rcases List.mem_cons.mp hy with rfl | hy'
      · rfl
      · exact absurd heq (Nat.ne_of_lt (ha.1 y hy'))
    · rcases List.mem_cons.mp hy with rfl | hy'
      · exact absurd heq.symm (Nat.ne_of_lt (ha.1 x hx'))
      · exact mem_idx_inj ha.2 x hx' y hy' heq

/-- A strictly `idx`-sorted list of elements of a strictly `idx`-sorted list is a
sublist of it (order of elements is forced by the strict order on indices). -/
theorem pairwiseLt_sublist : ∀ (t s : List ScoredMessage), s.Pairwise idxLt →
    t.Pairwise idxLt → (∀ x ∈ s, x ∈ t) → List.Sublist s t
  | _, [], _, _, _ => List.nil_sublist _
  | [], x :: _, _, _, hmem => absurd (hmem x (List.mem_cons_self x _)) (List.not_mem_nil x)
  | y :: t, x :: s, hs, ht, hmem => by
    have hx := List.pairwise_cons.mp hs
    have hy := List.pairwise_cons.mp ht
    by_cases hxy : x = y
    · subst hxy
      refine List.Sublist.cons₂ x (pairwiseLt_sublist t s hx.2 hy.2 ?_)
      intro z hz
      rcases List.mem_cons.mp (hmem z (List.mem_cons_of_mem x hz)) with rfl | h
      · exact absurd (hx.1 z hz) (Nat.lt_irrefl z.idx)
      · exact h
    · have hxt : x ∈ t := by
        rcases List.mem_cons.mp (hmem x (List.mem_cons_self x s)) with h | h
        · exact absurd h hxy
        · exact h
      have hyx : y.idx < x.idx := hy.1 x hxt
      refine List.Sublist.cons y (pairwiseLt_sublist t (x :: s) hs hy.2 ?_)
      intro z hz
      rcases List.mem_cons.mp (hmem z hz) with rfl | h
      · exfalso
        rcases List.mem_cons.mp hz with rfl | hzs
        · exact hxy rfl
        · exact Nat.lt_asymm hyx (hx.1 z hzs)
      · exact h

/-- The sorted merge is a permutation of its input. -/
theorem sortByIndex_perm (l : List ScoredMessage) : List.Perm (sortByIndex l) l :=
  List.perm_insertionSort idxLe l

/-- The sorted merge of two strictly `idx`-sorted lists with pairwise distinct
indices is itself strictly `idx`-sorted. -/
theorem sortByIndex_pairwise {l : List ScoredMessage}
    (hne : l.Pairwise (fun a b => a.idx ≠ b.idx)) :
    (sortByIndex l).Pairwise idxLt := by
  have hsorted : (sortByIndex l).Pairwise idxLe := List.sorted_insertionSort idxLe l
  have hne' : (sortByIndex l).Pairwise (fun a b => a.idx ≠ b.idx) :=
    ((sortByIndex_perm l).pairwise_iff (fun h => h.symm)).mpr hne
  exact (hsorted.and hne').imp (fun h => Nat.lt_of_le_of_ne h.1 h.2)

/-- The selection loop never exceeds the budget: the accumulated total after the
scan stays within `availableTokens` (each acceptance is guarded by exactly this
bound). -/
theorem selectLateGo_sum : ∀ (availableTokens : Int) (ys : List ScoredMessage) (acc : Int),
    acc ≤ availableTokens →
    acc + ((selectLateGo availableTokens ys acc).map (fun m => m.tokens)).sum ≤ availableTokens
  | _, [], _, h => by simpa [selectLateGo] using h
  | availableTokens, m :: rest, acc, h => by
    rw [selectLateGo]
    by_cases hfit : acc + m.tokens ≤ availableTokens
    · rw [if_pos hfit]
      have ih := selectLateGo_sum availableTokens rest (acc + m.tokens) hfit
      simp only [List.map_cons, List.sum_cons]
      omega
    · rw [if_neg hfit]
      simpa using h

/-- The selection loop returns a sublist (in fact a prefix) of its input. -/
theorem selectLateGo_sublist : ∀ (availableTokens : Int) (ys : List ScoredMessage) (acc : Int),
    List.Sublist (selectLateGo availableTokens ys acc) ys
  | _, [], _ => List.nil_sublist _
  | availableTokens, m :: rest, acc => by
    rw [selectLateGo]
    by_cases hfit : acc + m.tokens ≤ availableTokens
    · rw [if_pos hfit]
      exact List.Sublist.cons₂ m (selectLateGo_sublist availableTokens rest (acc + m.tokens))
    · rw [if_neg hfit]
      exact List.nil_sublist _

/-- The source's accumulated-total scan equals the specification's
remaining-budget scan. -/
theorem selectLateGo_spec : ∀ (availableTokens : Int) (ys : List ScoredMessage) (acc : Int),
    selectLateGo availableTokens ys acc = specAccumForward (availableTokens - acc) ys
  | _, [], _ => rfl
  | availableTokens, m :: rest, acc => by
    rw [selectLateGo, specAccumForward]
    by_cases hfit : acc + m.tokens ≤ availableTokens
    · rw [if_pos hfit, if_pos (by omega : m.tokens ≤ availableTokens - acc),
        selectLateGo_spec availableTokens rest (acc + m.tokens),
        show availableTokens - (acc + m.tokens) = availableTokens - acc - m.tokens by omega]
    · rw [if_neg hfit, if_neg (by omega : ¬ m.tokens ≤ availableTokens - acc)]

/-- The forward accumulate-until-overflow scan keeps a prefix: it equals `take k`
for some `k`. -/
theorem specAccumForward_take : ∀ (available : Int) (ys : List ScoredMessage),
    ∃ k, specAccumForward available ys = ys.take k
  | _, [] => ⟨0, rfl⟩
  | available, m :: rest => by
    rw [specAccumForward]
    by_cases hfit : m.tokens ≤ available
    · rw [if_pos hfit]
      obtain ⟨k, hk⟩ := specAccumForward_take (available - m.tokens) rest
      exact ⟨k + 1, by rw [hk]; rfl⟩
    · rw [if_neg hfit]
      exact ⟨0, rfl⟩

/-- The backward accumulate-until-overflow scan keeps a suffix: it equals
`drop k` for some `k`. -/
theorem specAccumBackward_drop (available : Int) (ns : List ScoredMessage) :
    ∃ k, specAccumBackward available ns = ns.drop k := by
  obtain ⟨k, hk⟩ := specAccumForward_take available ns.reverse
  refine ⟨ns.length - k, ?_⟩
  rw [specAccumBackward, hk, List.reverse_take, List.reverse_reverse, List.length_reverse]

/-- Either selection loop returns a sublist of the evictable list. -/
theorem selectedScored_sublist (strategy : Strategy) (availableTokens : Int)
    (ns : List ScoredMessage) :
    List.Sublist (selectedScored strategy availableTokens ns) ns := by
  cases strategy
  · have h := (selectLateGo_sublist availableTokens ns.reverse 0).reverse
    rw [List.reverse_reverse] at h
    exact h
  · exact selectLateGo_sublist availableTokens ns 0

/-- Either selection loop stays within the available budget. -/
theorem selectedScored_sum (strategy : Strategy) (availableTokens : Int)
    (ns : List ScoredMessage) (h0 : 0 ≤ availableTokens) :
    ((selectedScored strategy availableTokens ns).map (fun m => m.tokens)).sum ≤
      availableTokens := by
  cases strategy
  · show (((selectLateGo availableTokens ns.reverse 0).reverse.map (fun m => m.tokens)).sum ≤ _)
    rw [List.map_reverse, List.sum_reverse]
    have := selectLateGo_sum availableTokens ns.reverse 0 h0
    omega
  · simp only [selectedScored]
    have := selectLateGo_sum availableTokens ns 0 h0
    omega

/-- Members of `systemMessages` have the system role. -/
theorem mem_sysScored_role {countTokens : String → Except String Int}
    {messages : List Message} {s : ScoredMessage}
    (hs : s ∈ sysScored countTokens messages) : s.message.role = Role.system := by
  have h := (List.mem_filter.mp hs).2
  simpa using h

/-- Members of `nonSystemMessages` do not have the system role. -/
theorem mem_nonSysScored_role {countTokens : String → Except String Int}
    {messages : List Message} {s : ScoredMessage}
    (hs : s ∈ nonSysScored countTokens messages) : ¬ s.message.role = Role.system := by
  have h := (List.mem_filter.mp hs).2
  simpa using h

/-- A scored message is a member of the sorted merge exactly when it is a member
of the merged input. -/
theorem sortByIndex_mem (l : List ScoredMessage) (z : ScoredMessage) :
    z ∈ sortByIndex l ↔ z ∈ l :=
  (sortByIndex_perm l).mem_iff

/-- Core facts about the reassembly `sortByIndex (A ++ B)` of `trimMessages`,
for `A` a sublist of the preserved system messages and `B` a sublist of the
evictable messages: the merge is strictly `idx`-sorted and is a sublist of the
scored conversation. -/
theorem merge_facts (countTokens : String → Except String Int) (messages : List Message)
    {A B : List ScoredMessage}
    (hA : List.Sublist A (sysScored countTokens messages))
    (hB : List.Sublist B (nonSysScored countTokens messages)) :
    (sortByIndex (A ++ B)).Pairwise idxLt ∧
    List.Sublist (sortByIndex (A ++ B)) (scoreMessages countTokens messages) := by
  have hsc : (scoreMessages countTokens messages).Pairwise idxLt :=
    scoreMessages_pairwise countTokens messages
  have hAsc : List.Sublist A (scoreMessages countTokens messages) :=
    hA.trans (List.filter_sublist _)
  have hBsc : List.Sublist B (scoreMessages countTokens messages) :=
    hB.trans (List.filter_sublist _)
  have hApw : A.Pairwise idxLt := hsc.sublist hAsc
  have hBpw : B.Pairwise idxLt := hsc.sublist hBsc
  have hcross : ∀ a ∈ A, ∀ b ∈ B, a.idx ≠ b.idx := by
    intro a ha b hb heq
    have hab : a = b := mem_idx_inj hsc a (hAsc.subset ha) b (hBsc.subset hb) heq
    exact mem_nonSysScored_role (hB.subset hb)
      (hab ▸ mem_sysScored_role (hA.subset ha))
  have hpwne : (A ++ B).Pairwise (fun a b => a.idx ≠ b.idx) := by
    rw [List.pairwise_append]
    exact ⟨hApw.imp Nat.ne_of_lt, hBpw.imp Nat.ne_of_lt, hcross⟩
  have hSpw : (sortByIndex (A ++ B)).Pairwise idxLt := sortByIndex_pairwise hpwne
  refine ⟨hSpw, pairwiseLt_sublist _ _ hSpw hsc ?_⟩
  intro z hz
  rcases List.mem_append.mp ((sortByIndex_mem _ z).mp hz) with h | h
  · exact hAsc.subset h
  · exact hBsc.subset h

/-- The reassembly of `trimMessages`, projected back to messages, is a sublist of
the input conversation. -/
theorem merge_sublist (countTokens : String → Except String Int) (messages : List Message)
    {A B : List ScoredMessage}
    (hA : List.Sublist A (sysScored countTokens messages))
    (hB : List.Sublist B (nonSysScored countTokens messages)) :
    List.Sublist ((sortByIndex (A ++ B)).map (fun m => m.message)) messages := by
  have h := ((merge_facts countTokens messages hA hB).2).map (fun m => m.message)
  rwa [scoreMessages_message countTokens messages] at h

/-- Filtering the reassembly down to non-system roles recovers exactly the
selected evictable messages, in order. -/
theorem merge_filter (countTokens : String → Except String Int) (messages : List Message)
    {A B : List ScoredMessage}
    (hA : List.Sublist A (sysScored countTokens messages))
    (hB : List.Sublist B (nonSysScored countTokens messages)) :
    (sortByIndex (A ++ B)).filter (fun s => decide (¬ s.message.role = Role.system)) = B := by
  have hsc : (scoreMessages countTokens messages).Pairwise idxLt :=
    scoreMessages_pairwise countTokens messages
  have hfacts := merge_facts countTokens messages hA hB
  have hperm : List.Perm
      ((sortByIndex (A ++ B)).filter (fun s => decide (¬ s.message.role = Role.system)))
      ((A ++ B).filter (fun s => decide (¬ s.message.role = Role.system))) :=
    (sortByIndex_perm (A ++ B)).filter _
  have hAnil : A.filter (fun s => decide (¬ s.message.role = Role.system)) = [] := by
    rw [List.filter_eq_nil_iff]
    intro a ha
    simpa using mem_sysScored_role (hA.subset ha)
  have hBall : B.filter (fun s => decide (¬ s.message.role = Role.system)) = B := by
    rw [List.filter_eq_self]
    intro b hb
    simpa using mem_nonSysScored_role (hB.subset hb)
  rw [List.filter_append, hAnil, hBall, List.nil_append] at hperm
  exact List.eq_of_perm_of_sorted hperm (hfacts.1.filter _)
    (hsc.sublist (hB.trans (List.filter_sublist _)))

/-- An empty conversation reserves no system tokens. -/
theorem systemTokensOf_nil (countTokens : String → Except String Int) (preserveSystem : Bool) :
    systemTokensOf countTokens preserveSystem [] = 0 := by
  cases preserveSystem <;> rfl

/-- With a total capability, the specification's cost of each message equals the
recorded token field of its scored form. -/
theorem costs_eq (countTokens : String → Except String Int) (f : String → Int)
    (messages : List Message) (hct : ∀ s, countTokens s = Except.ok (f s)) :
    messages.map (fun m => f m.content + extraTokensPerMessage) =
      (scoreMessages countTokens messages).map (fun m => m.tokens) := by
  conv_lhs => rw [← scoreMessages_message countTokens messages]
  rw [List.map_map]
  refine List.map_congr_left ?_
  intro s hs
  have ht := scoreMessagesFrom_tokens countTokens 0 messages s hs
  rw [tryCountTokens_of_ok hct] at ht
  exact ht.symm

/-- The specification cost of the reassembled output is the sum of the costs of
its two merged halves. -/
theorem merge_cost_sum (countTokens : String → Except String Int) (f : String → Int)
    (messages : List Message) {A B : List ScoredMessage}
    (hct : ∀ s, countTokens s = Except.ok (f s))
    (hA : List.Sublist A (sysScored countTokens messages))
    (hB : List.Sublist B (nonSysScored countTokens messages)) :
    (((sortByIndex (A ++ B)).map (fun m => m.message)).map
      (fun m => f m.content + extraTokensPerMessage)).sum =
      (A.map (fun m => m.tokens)).sum + (B.map (fun m => m.tokens)).sum := by
  rw [List.map_map]
  have hcong : ∀ s ∈ sortByIndex (A ++ B),
      ((fun m => f m.content + extraTokensPerMessage) ∘ (fun m => m.message)) s = s.tokens := by
    intro s hs
    have hsSc : s ∈ scoreMessages countTokens messages :=
      (merge_facts countTokens messages hA hB).2.subset hs
    have ht := scoreMessagesFrom_tokens countTokens 0 messages s hsSc
    rw [tryCountTokens_of_ok hct] at ht
    exact ht.symm
  rw [List.map_congr_left hcong,
    ((sortByIndex_perm (A ++ B)).map (fun m => m.tokens)).sum_eq,
    List.map_append, List.sum_append]

/-- Filtering after projecting to messages is projecting after filtering on the
scored side (the predicate only inspects the message). -/
theorem map_message_filter : ∀ (l : List ScoredMessage),
    (l.map (fun m => m.message)).filter (fun m => decide (¬ m.role = Role.system)) =
      (l.filter (fun s => decide (¬ s.message.role = Role.system))).map
        (fun m => m.message)
  | [] => rfl
  | a :: t => by
    simp only [List.map_cons, List.filter_cons]
    by_cases hd : (decide (¬ a.message.role = Role.system)) = true
    · rw [if_pos hd, if_pos hd, List.map_cons, map_message_filter t]
    · rw [if_neg hd, if_neg hd, map_message_filter t]

/-- The `early` selection is exactly the specification's backward scan. -/
theorem selectedScored_early (availableTokens : Int) (ns : List ScoredMessage) :
    selectedScored Strategy.early availableTokens ns = specAccumBackward availableTokens ns := by
  simp only [selectedScored, specAccumBackward, selectLateGo_spec, sub_zero]

/-- The `late` selection is exactly the specification's forward scan. -/
theorem selectedScored_late (availableTokens : Int) (ns : List ScoredMessage) :
    selectedScored Strategy.late availableTokens ns = specAccumForward availableTokens ns := by
  simp only [selectedScored, selectLateGo_spec, sub_zero]

/-- `countX` never reports a negative count. -/
theorem countX_nonneg (s : String) : 0 ≤ countX s :=
  Int.ofNat_nonneg _

/-- `countX` is (sub)additive across the newline join: a newline contains no x. -/
theorem countX_subadd (a b : String) : countX (a ++ ("\n" ++ b)) ≤ countX a + countX b := by
  have hdata : (a ++ ("\n" ++ b)).data = a.data ++ ('\n' :: b.data) := by
    cases a
    cases b
    rfl
  have hxn : (('\n' : Char) == 'x') = false := by decide
  simp only [countX, hdata, List.count_append, List.count_cons, hxn, Bool.false_eq_true,
    if_false, Int.ofNat_eq_coe]
  push_cast
  omega

/-- Witness for the amended C1: splitting eight x-characters grouped `3 2 1`
under ceiling 3 produces two chunks, each measuring at most 3. -/
theorem ceiling_invariant_amended_witness :
    splitTextMaxTokens ctX "xxx xx x" 3 ⟨none, none, none⟩ = Except.ok ["xxx", "xx\nx"] ∧
    ∀ c ∈ ["xxx", "xx\nx"], countX c ≤ (3 : Int) := by
  refine ⟨by decide, ?_⟩
  exact ceiling_invariant_amended ctX countX "xxx xx x" 3 ⟨none, none, none⟩
    (fun _ => rfl) countX_nonneg countX_subadd (by decide) (by decide) (by decide)
    ["xxx", "xx\nx"] (by decide)

/-- C6 (confirmed): every normal result of `trimMessages` is a sublist of the
input conversation — each returned message occurs in the input and the relative
order of retained messages is the input order, for every budget, strategy and
option set. -/
theorem order_preservation (countTokens : String → Except String Int)
    (messages : List Message) (maxTokens : Int) (options : TruncateOptions)
    (out : List Message)
    (hok : trimMessages countTokens messages maxTokens options = Except.ok out) :
    List.Sublist out messages := by
  simp only [trimMessages] at hok
  by_cases h0 : maxTokens = 0
  · rw [if_pos h0] at hok
    exact Except.noConfusion hok
  rw [if_neg h0] at hok
  by_cases hnil : messages = []
  · rw [if_pos hnil] at hok
    obtain rfl := (Except.ok.injEq _ _).mp hok
    exact List.nil_sublist _
  rw [if_neg hnil] at hok
  by_cases htot : totalTokensOf countTokens messages ≤ maxTokens
  · rw [if_pos htot] at hok
    obtain rfl := (Except.ok.injEq _ _).mp hok
    exact List.Sublist.refl _
  rw [if_neg htot] at hok
  by_cases hav : availableTokensOf countTokens (options.preserveSystem.getD true)
      messages maxTokens ≤ 0
  · rw [if_pos hav] at hok
    obtain rfl := (Except.ok.injEq _ _).mp hok
    by_cases hps : options.preserveSystem.getD true = true
    · rw [if_pos hps, sysScored]
      have h := (List.filter_sublist (p := fun m => decide (m.message.role = Role.system))
        (scoreMessages countTokens messages)).map (fun m => m.message)
      rwa [scoreMessages_message] at h
    · rw [if_neg hps]
      exact List.nil_sublist _
  rw [if_neg hav] at hok
  obtain rfl := (Except.ok.injEq _ _).mp hok
  refine merge_sublist countTokens messages ?_ (selectedScored_sublist _ _ _)
  by_cases hps : options.preserveSystem.getD true = true
  · rw [if_pos hps]
  · rw [if_neg hps]
    exact List.nil_sublist _

/-- Witness for C6: in the concrete eviction scenario the returned conversation
is a sublist of the input. -/
theorem order_preservation_witness :
    List.Sublist
      [⟨Role.system, "s", none, none⟩, ⟨Role.user, "cccc", none, none⟩] msgs4 :=
  order_preservation okLen msgs4 20 ⟨some Strategy.early, none⟩
    [⟨Role.system, "s", none, none⟩, ⟨Role.user, "cccc", none, none⟩] (by decide)

/-- C7 (confirmed): with `preserveSystem = true` and positive available budget,
every system-role message of the input appears in every normal `trimMessages`
result, regardless of strategy and of the other messages' costs. -/
theorem system_retention (countTokens : String → Except String Int)
    (messages : List Message) (maxTokens : Int) (options : TruncateOptions)
    (hps : options.preserveSystem.getD true = true)
    (hmt : maxTokens ≠ 0)
    (hav : 0 < availableTokensOf countTokens true messages maxTokens) :
    ∀ out, trimMessages countTokens messages maxTokens options = Except.ok out →
      ∀ m ∈ messages, m.role = Role.system → m ∈ out := by
  intro out hok m hm hrole
  simp only [trimMessages] at hok
  rw [if_neg hmt] at hok
  by_cases hnil : messages = []
  · subst hnil
    exact absurd hm (List.not_mem_nil m)
  rw [if_neg hnil] at hok
  by_cases htot : totalTokensOf countTokens messages ≤ maxTokens
  · rw [if_pos htot] at hok
    obtain rfl := (Except.ok.injEq _ _).mp hok
    exact hm
  rw [if_neg htot] at hok
  have hav' : ¬ availableTokensOf countTokens (options.preserveSystem.getD true)
      messages maxTokens ≤ 0 := by
    rw [hps]
    omega
  rw [if_neg hav', if_pos hps] at hok
  obtain rfl := (Except.ok.injEq _ _).mp hok
  have hm' : m ∈ (scoreMessages countTokens messages).map (fun x => x.message) := by
    rw [scoreMessages_message]
    exact hm
  obtain ⟨s, hs, hsm⟩ := List.mem_map.mp hm'
  have hsys : s ∈ sysScored countTokens messages := by
    rw [sysScored, List.mem_filter]
    refine ⟨hs, ?_⟩
    simp [hsm, hrole]
  refine List.mem_map.mpr ⟨s, ?_, hsm⟩
  rw [sortByIndex_mem]
  exact List.mem_append.mpr (Or.inl hsys)

/-- Witness for C7: the system message survives the concrete eviction scenario. -/
theorem system_retention_witness :
    (⟨Role.system, "s", none, none⟩ : Message) ∈ msgs4 ∧
    (⟨Role.system, "s", none, none⟩ : Message).role = Role.system ∧
    (⟨Role.system, "s", none, none⟩ : Message) ∈
      [⟨Role.system, "s", none, none⟩, ⟨Role.user, "cccc", none, none⟩] :=
  ⟨by decide, rfl,
    system_retention okLen msgs4 20 ⟨some Strategy.early, none⟩ rfl (by decide) (by decide)
      [⟨Role.system, "s", none, none⟩, ⟨Role.user, "cccc", none, none⟩] (by decide)
      ⟨Role.system, "s", none, none⟩ (by decide) rfl⟩

/-- C2 (confirmed): whenever the capability is total, the budget is non-zero and
`availableTokens = maxTokens - systemTokens - totalOverhead` is positive, every
normal `trimMessages` result satisfies the budget invariant: the sum of
`countTokens(content) + perMessageOverhead` over the returned messages plus the
total overhead is at most `maxTokens`. -/
theorem budget_invariant (countTokens : String → Except String Int) (f : String → Int)
    (messages : List Message) (maxTokens : Int) (options : TruncateOptions)
    (hct : ∀ s, countTokens s = Except.ok (f s))
    (hmt : maxTokens ≠ 0)
    (hav : 0 < availableTokensOf countTokens (options.preserveSystem.getD true)
      messages maxTokens) :
    ∀ out, trimMessages countTokens messages maxTokens options = Except.ok out →
      (out.map (fun m => f m.content + extraTokensPerMessage)).sum + extraTokensTotal ≤
        maxTokens := by
  intro out hok
  simp only [trimMessages] at hok
  rw [if_neg hmt] at hok
  by_cases hnil : messages = []
  · rw [if_pos hnil] at hok
    obtain rfl := (Except.ok.injEq _ _).mp hok
    subst hnil
    rw [availableTokensOf, systemTokensOf_nil] at hav
    simp only [List.map_nil, List.sum_nil]
    omega
  rw [if_neg hnil] at hok
  by_cases htot : totalTokensOf countTokens messages ≤ maxTokens
  · rw [if_pos htot] at hok
    obtain rfl := (Except.ok.injEq _ _).mp hok
    rw [costs_eq countTokens f messages hct]
    rw [totalTokensOf] at htot
    exact htot
  rw [if_neg htot] at hok
  rw [if_neg (by omega : ¬ availableTokensOf countTokens (options.preserveSystem.getD true)
    messages maxTokens ≤ 0)] at hok
  obtain rfl := (Except.ok.injEq _ _).mp hok
  have h0 : 0 ≤ availableTokensOf countTokens (options.preserveSystem.getD true)
      messages maxTokens := by omega
  have hsel := selectedScored_sum (options.strategy.getD Strategy.early)
    (availableTokensOf countTokens (options.preserveSystem.getD true) messages maxTokens)
    (nonSysScored countTokens messages) h0
  by_cases hps : options.preserveSystem.getD true = true
  · rw [if_pos hps] at hok ⊢
    rw [merge_cost_sum countTokens f messages hct (List.Sublist.refl _)
      (selectedScored_sublist _ _ _)]
    have havail : availableTokensOf countTokens (options.preserveSystem.getD true)
        messages maxTokens =
        maxTokens - ((sysScored countTokens messages).map (fun m => m.tokens)).sum -
          extraTokensTotal := by
      rw [availableTokensOf, systemTokensOf, if_pos hps]
    omega
  · rw [if_neg hps] at hok ⊢
    rw [merge_cost_sum countTokens f messages hct (List.nil_sublist _)
      (selectedScored_sublist _ _ _)]
    have havail : availableTokensOf countTokens (options.preserveSystem.getD true)
        messages maxTokens = maxTokens - 0 - extraTokensTotal := by
      rw [availableTokensOf, systemTokensOf, if_neg hps]
    simp only [List.map_nil, List.sum_nil]
    omega

/-- Witness for C2: in the two-message scenario the trimmed conversation's cost
stays within the budget of 13. -/
theorem budget_invariant_witness :
    ((13 : Int) ≠ 0) ∧ (0 < availableTokensOf okLen true msgsW 13) ∧
    ((([⟨Role.system, "ss", none, none⟩] : List Message).map
      (fun m => Int.ofNat m.content.length + extraTokensPerMessage)).sum +
        extraTokensTotal ≤ 13) :=
  ⟨by decide, by decide,
    budget_invariant okLen (fun s => Int.ofNat s.length) msgsW 13 ⟨none, none⟩
      (fun _ => rfl) (by decide) (by decide)
      [⟨Role.system, "ss", none, none⟩] (by decide)⟩

/-- C5 (counterexample): with `preserveSystem = false` the specification's
evictable list is the whole conversation, and its backward
accumulate-until-overflow scan would retain the trailing system message; the
code, however, only ever scans the non-system messages and silently drops the
system ones, so the retained messages are not the claimed run. -/
theorem eviction_direction_counterexample :
    trimMessages okLen msgsEvict 20 ⟨none, some false⟩ = Except.ok [msgU] ∧
    (specAccumBackward (availableTokensOf okLen false msgsEvict 20)
      (claimEvictable false (scoreMessages okLen msgsEvict))).map (fun m => m.message) =
      [msgU, ⟨Role.system, "b", none, none⟩] ∧
    ([msgU] : List Message) ≠ [msgU, ⟨Role.system, "b", none, none⟩] := by
  refine ⟨by decide, by decide, by decide⟩

/-- C5 (amended): in the eviction case the scan is always over the non-system
messages only (system messages are never scanned; with `preserveSystem = false`
they are dropped entirely).  With strategy `early` the retained non-system
messages are exactly the accumulate-until-first-overflow suffix of the
non-system list (backward scan from the most recent); with `late` they are the
corresponding prefix (forward scan); both stop at the first overflow. -/
theorem eviction_direction_amended (countTokens : String → Except String Int)
    (messages : List Message) (maxTokens : Int) (options : TruncateOptions)
    (hmt : maxTokens ≠ 0)
    (htot : ¬ totalTokensOf countTokens messages ≤ maxTokens)
    (hav : 0 < availableTokensOf countTokens (options.preserveSystem.getD true)
      messages maxTokens) :
    ∀ out, trimMessages countTokens messages maxTokens options = Except.ok out →
      (options.strategy.getD Strategy.early = Strategy.early →
        out.filter (fun m => decide (¬ m.role = Role.system)) =
          (specAccumBackward
            (availableTokensOf countTokens (options.preserveSystem.getD true) messages maxTokens)
            (nonSysScored countTokens messages)).map (fun m => m.message) ∧
        ∃ k, specAccumBackward
            (availableTokensOf countTokens (options.preserveSystem.getD true) messages maxTokens)
            (nonSysScored countTokens messages) =
          (nonSysScored countTokens messages).drop k) ∧
      (options.strategy.getD Strategy.early = Strategy.late →
        out.filter (fun m => decide (¬ m.role = Role.system)) =
          (specAccumForward
            (availableTokensOf countTokens (options.preserveSystem.getD true) messages maxTokens)
            (nonSysScored countTokens messages)).map (fun m => m.message) ∧
        ∃ k, specAccumForward
            (availableTokensOf countTokens (options.preserveSystem.getD true) messages maxTokens)
            (nonSysScored countTokens messages) =
          (nonSysScored countTokens messages).take k) := by
  intro out hok
  simp only [trimMessages] at hok
  rw [if_neg hmt] at hok
  have hnil : messages ≠ [] := by
    intro h
    subst h
    rw [availableTokensOf, systemTokensOf_nil] at hav
    rw [totalTokensOf] at htot
    simp only [scoreMessages, scoreMessagesFrom, List.map_nil, List.sum_nil] at htot
    omega
  rw [if_neg hnil, if_neg htot, if_neg (by omega : ¬ availableTokensOf countTokens
    (options.preserveSystem.getD true) messages maxTokens ≤ 0)] at hok
  obtain rfl := (Except.ok.injEq _ _).mp hok
  have hA : List.Sublist
      (if options.preserveSystem.getD true = true then sysScored countTokens messages else [])
      (sysScored countTokens messages) := by
    by_cases hps : options.preserveSystem.getD true = true
    · rw [if_pos hps]
    · rw [if_neg hps]
      exact List.nil_sublist _
  constructor
  · intro hstrat
    rw [hstrat]
    refine ⟨?_, specAccumBackward_drop _ _⟩
    rw [map_message_filter, selectedScored_early]
    rw [merge_filter countTokens messages hA
      ((selectedScored_early _ _) ▸ selectedScored_sublist Strategy.early _ _)]
  · intro hstrat
    rw [hstrat]
    refine ⟨?_, specAccumForward_take _ _⟩
    rw [map_message_filter, selectedScored_late]
    rw [merge_filter countTokens messages hA
      ((selectedScored_late _ _) ▸ selectedScored_sublist Strategy.late _ _)]

/-- Witness for the amended C5: in the concrete early-strategy scenario the
retained non-system messages are exactly the backward-scan suffix of the
non-system list. -/
theorem eviction_direction_amended_witness :
    (¬ totalTokensOf okLen msgs4 ≤ 20) ∧
    (0 < availableTokensOf okLen true msgs4 20) ∧
    (([⟨Role.system, "s", none, none⟩, ⟨Role.user, "cccc", none, none⟩] : List Message).filter
        (fun m => decide (¬ m.role = Role.system)) =
      (specAccumBackward (availableTokensOf okLen true msgs4 20)
        (nonSysScored okLen msgs4)).map (fun m => m.message)) ∧
    (∃ k, specAccumBackward (availableTokensOf okLen true msgs4 20)
        (nonSysScored okLen msgs4) = (nonSysScored okLen msgs4).drop k) := by
  have h := eviction_direction_amended okLen msgs4 20 ⟨some Strategy.early, none⟩
    (by decide) (by decide) (by decide)
    [⟨Role.system, "s", none, none⟩, ⟨Role.user, "cccc", none, none⟩] (by decide)
  exact ⟨by decide, by decide, (h.1 rfl).1, (h.1 rfl).2⟩

/-- Witness for C4 at the word `"xxxxx x"` with ceiling 3 under the x-counting
capability: the pipeline leaves the 5-token fragment `"xxxxx"`, and the call
errors. -/
theorem segmentation_failure_iff_witness :
    (∃ p ∈ splitParts ctX 3 (splitters true true) [⟨"xxxxx x", tryCountTokens ctX "xxxxx x"⟩],
        (3 : Int) < p.tokens) ∧
    (∃ e, splitTextMaxTokens ctX "xxxxx x" 3 ⟨none, none, none⟩ = Except.error e) := by
  have hp : ∃ p ∈ splitParts ctX 3 (splitters true true)
      [⟨"xxxxx x", tryCountTokens ctX "xxxxx x"⟩], (3 : Int) < p.tokens :=
    ⟨⟨"xxxxx", 5⟩, by decide, by decide⟩
  exact ⟨hp,
    (segmentation_failure_iff ctX "xxxxx x" 3 ⟨none, none, none⟩
      (by decide) (by decide) (by decide) (by decide)).mpr hp⟩

end Polytokenizer
